import Mathlib

/-!
Verification of the BisQue image-conversion engine
(`bqserver/bq/image_service/controllers/converters/converter_imgcnv.py` and
`bqcore/bq/util/locks.py`): page addressing, pyramid level selection, DICOM
series assembly, ROI conversion, converter-run orchestration, and the scoped
file guard, shallowly embedded as executable Lean definitions.

Strings that only undergo space-removal and prefix tests (the `dimensions`
order string) are embedded as `List Char`: Python's `s.replace(' ', '')`
removes every space character, and `s.startswith(p)` is the prefix test.
-/

/-! ## Page addressing (`ConverterImgcnv.slice`) -/

/-- Dimension metadata read from `token.dims` in `ConverterImgcnv.slice`:
`image_num_z`, `image_num_t` and the `dimensions` order string, with the
defaults used by the Python `dict.get` calls. -/
structure ImInfo where
  image_num_z : Int := 1
  image_num_t : Int := 1
  dimensions : List Char := "XYCZT".toList
deriving DecidableEq

/-- `info.get('dimensions', 'XYCZT').replace(' ', '')`. -/
def dimsNoSpace (info : ImInfo) : List Char := info.dimensions.filter (fun c => c ≠ ' ')

/-- The page computation in the body of the double loop of
`ConverterImgcnv.slice` (converter_imgcnv.py lines 720-727). -/
def pageNum (info : ImInfo) (zi ti : Int) : Int :=
  if info.image_num_t = 1 then zi
  else if info.image_num_z = 1 then ti
  else if ("XYCT".toList.isPrefixOf (dimsNoSpace info)) = false then
    (ti - 1) * info.image_num_z + zi
  else
    (zi - 1) * info.image_num_t + ti

/-- Python `range(a, b + 1)`: the integers `a, a+1, ..., b` (empty if `b < a`). -/
def intRange (a b : Int) : List Int :=
  (List.range (b + 1 - a).toNat).map (fun (i : Nat) => a + (i : Int))

/-- The `pages` list built by `ConverterImgcnv.slice` (lines 712-728): after
replacing a zero `t2`/`z2` by `t1`/`z1`, iterate `ti` in the outer loop and
`zi` in the inner loop, appending `pageNum` for each pair. -/
def slicePages (info : ImInfo) (z1 z2 t1 t2 : Int) : List Int :=
  let t2' := if t2 = 0 then t1 else t2
  let z2' := if z2 = 0 then z1 else z2
  (intRange t1 t2').flatMap (fun ti => (intRange z1 z2').map (fun zi => pageNum info zi ti))

/-- The page formula exactly as worded in the specification (claim C1), kept
separate from `pageNum` so the code-derived definition can be compared
against it. -/
def claimPage (info : ImInfo) (zi ti : Int) : Int :=
  if info.image_num_t = 1 then zi
  else if info.image_num_z = 1 then ti
  else if ¬ ("XYCT".toList.isPrefixOf (dimsNoSpace info) = true) then
    (ti - 1) * info.image_num_z + zi
  else
    (zi - 1) * info.image_num_t + ti

theorem length_intRange (a b : Int) : (intRange a b).length = (b + 1 - a).toNat := by
  rw [intRange, List.length_map, List.length_range]

theorem getElem?_intRange {a b : Int} {i : Nat} (h : i < (b + 1 - a).toNat) :
    (intRange a b)[i]? = some (a + (i : Int)) := by
  rw [intRange, List.getElem?_map, List.getElem?_range h]
  rfl

theorem getElem?_flatten_uniform {Z : Nat} :
    ∀ (ls : List (List Int)) (i j : Nat), (∀ l ∈ ls, l.length = Z) → j < Z →
      ls.flatten[i * Z + j]? = ls[i]?.bind (fun l => l[j]?)
  | [], i, j, _, _ => by simp
  | l :: ls, 0, j, hlen, hj => by
    have hl : l.length = Z := hlen l (by simp)
    simp only [List.flatten_cons, Nat.zero_mul, Nat.zero_add]
    rw [List.getElem?_append, if_pos (by omega)]
    simp
  | l :: ls, i + 1, j, hlen, hj => by
    have hl : l.length = Z := hlen l (by simp)
    simp only [List.flatten_cons]
    rw [List.getElem?_append_right (by nlinarith [Nat.succ_mul i Z])]
    have harith : (i + 1) * Z + j - l.length = i * Z + j := by
      rw [hl, Nat.succ_mul]; omega
    rw [harith, getElem?_flatten_uniform ls i j (fun x hx => hlen x (by simp [hx])) hj]
    simp

theorem pageNum_eq_claimPage (info : ImInfo) (zi ti : Int) :
    pageNum info zi ti = claimPage info zi ti := by
  unfold pageNum claimPage
  cases h : "XYCT".toList.isPrefixOf (dimsNoSpace info) <;> simp [h]

/-- C1. Page addressing: for 1-based ranges `z ∈ [z1,z2]`, `t ∈ [t1,t2]`, the
`pages` list built by `ConverterImgcnv.slice` enumerates `ti` in the outer
loop and `zi` in the inner loop, and at each position carries exactly the
page given by the specification formula (`claimPage`): `zi` when
`image_num_t = 1`, else `ti` when `image_num_z = 1`, else
`(ti-1)*image_num_z + zi` when the space-stripped dimension string does not
start with `XYCT`, else `(zi-1)*image_num_t + ti`.  Moreover the three
concrete examples: dims {Z=5,T=1} gives page(Z=3,T=1)=3; dims {Z=1,T=4}
gives page(Z=1,T=2)=2; dims {Z=3,T=4} with order `XYZCT` gives
page(Z=2,T=3)=8. -/
theorem slice_page_addressing :
    (∀ (info : ImInfo) (z1 z2 t1 t2 zi ti : Int),
      1 ≤ z1 → 1 ≤ t1 → z1 ≤ zi → zi ≤ z2 → t1 ≤ ti → ti ≤ t2 →
      (slicePages info z1 z2 t1 t2)[((ti - t1) * (z2 - z1 + 1) + (zi - z1)).toNat]?
        = some (claimPage info zi ti))
    ∧ slicePages { image_num_z := 5, image_num_t := 1 } 3 3 1 1 = [3]
    ∧ slicePages { image_num_z := 1, image_num_t := 4 } 1 1 2 2 = [2]
    ∧ slicePages { image_num_z := 3, image_num_t := 4, dimensions := "XYZCT".toList } 2 2 3 3
        = [8] := by
  refine ⟨?_, by decide, by decide, by decide⟩
  intro info z1 z2 t1 t2 zi ti hz1 ht1 hz1i hz2i ht1i ht2i
  have ht2 : t2 ≠ 0 := by omega
  have hz2 : z2 ≠ 0 := by omega
  set Z : Nat := (z2 + 1 - z1).toNat with hZ
  set I : Nat := (ti - t1).toNat with hI
  set J : Nat := (zi - z1).toNat with hJ
  have hidx : ((ti - t1) * (z2 - z1 + 1) + (zi - z1)).toNat = I * Z + J := by
    have h1 : ti - t1 = (I : Int) := by omega
    have h2 : z2 - z1 + 1 = (Z : Int) := by omega
    have h3 : zi - z1 = (J : Int) := by omega
    rw [h1, h2, h3]
    have : (I : Int) * (Z : Int) + (J : Int) = ((I * Z + J : Nat) : Int) := by push_cast; ring
    rw [this, Int.toNat_natCast]
  rw [hidx]
  unfold slicePages
  simp only [if_neg ht2, if_neg hz2, List.flatMap_def]
  rw [getElem?_flatten_uniform _ I J ?_ ?_]
  · rw [List.getElem?_map, getElem?_intRange (a := t1) (b := t2) (by omega)]
    show ((intRange z1 z2).map _)[J]? = _
    rw [List.getElem?_map, getElem?_intRange (a := z1) (b := z2) (by omega)]
    have hzi : z1 + (J : Int) = zi := by omega
    have hti : t1 + (I : Int) = ti := by omega
    rw [hzi, hti]
    simp [pageNum_eq_claimPage]
  · intro l hl
    rcases List.mem_map.mp hl with ⟨x, _, rfl⟩
    simp [length_intRange]
  · omega

/-- Closed instance of `slice_page_addressing`: dims {Z=3,T=4}, order
`XYZCT`, full ranges z ∈ [1,3], t ∈ [1,4]; the entry for (zi,ti) = (2,3)
sits at index (3-1)*3+(2-1) = 7 and equals 8. -/
theorem slice_page_addressing_witness :
    (slicePages { image_num_z := 3, image_num_t := 4, dimensions := "XYZCT".toList }
        1 3 1 4)[(((3 : Int) - 1) * (3 - 1 + 1) + ((2 : Int) - 1)).toNat]?
      = some (claimPage { image_num_z := 3, image_num_t := 4, dimensions := "XYZCT".toList } 2 3) :=
  slice_page_addressing.1 _ 1 3 1 4 2 3 (by decide) (by decide) (by decide) (by decide)
    (by decide) (by decide)

/-! ## ROI coordinate conversion (`ConverterImgcnv.slice`, lines 755-766) -/

/-- Decrement a coordinate only when it is positive, as in the Python body
`if x1 > 0: x1 = x1 - 1`. -/
def roiDec (a : Int) : Int := if a > 0 then a - 1 else a

/-- The ROI argument emitted by `ConverterImgcnv.slice` (lines 755-766): when
at least one axis has differing bounds, each differing axis has its positive
bounds decremented and a `-roi x1,y1,x2,y2` argument is produced (returned
here as the tuple `(x1, y1, x2, y2)`); otherwise no argument is emitted. -/
def roiArgs (x1 x2 y1 y2 : Int) : Option (Int × Int × Int × Int) :=
  if ¬ x1 = x2 ∨ ¬ y1 = y2 then
    let px := if ¬ x1 = x2 then (roiDec x1, roiDec x2) else (x1, x2)
    let py := if ¬ y1 = y2 then (roiDec y1, roiDec y2) else (y1, y2)
    some (px.1, py.1, px.2, py.2)
  else
    none

/-- Per-axis conversion exactly as worded in the specification (claim C5):
an axis whose two bounds differ has each positive bound decremented by one,
an axis whose bounds are equal is left unconverted. -/
def claimAxis (a b : Int) : Int × Int :=
  if a = b then (a, b) else (roiDec a, roiDec b)

/-- C5. ROI coordinate conversion: when both axes have equal bounds no ROI
argument is emitted at all; otherwise the emitted ROI carries each axis
converted per `claimAxis` (differing bounds: positive bounds decremented;
equal bounds: unconverted). -/
theorem slice_roi_conversion (x1 x2 y1 y2 : Int) :
    (x1 = x2 → y1 = y2 → roiArgs x1 x2 y1 y2 = none)
    ∧ (¬ (x1 = x2 ∧ y1 = y2) →
        roiArgs x1 x2 y1 y2 =
          some ((claimAxis x1 x2).1, (claimAxis y1 y2).1,
                (claimAxis x1 x2).2, (claimAxis y1 y2).2)) := by
  constructor
  · intro hx hy
    simp [roiArgs, hx, hy]
  · intro h
    by_cases hx : x1 = x2 <;> by_cases hy : y1 = y2 <;>
      simp [roiArgs, claimAxis, hx, hy] at h ⊢

/-- Closed instance of `slice_roi_conversion`: bounds (x1,x2,y1,y2) =
(5,5,2,7): the x-axis is equal and left unconverted, the y-axis differs and
is decremented. -/
theorem slice_roi_conversion_witness :
    roiArgs 5 5 2 7 = some (5, 1, 5, 6) := by
  have h := (slice_roi_conversion 5 5 2 7).2 (by decide)
  rw [h]
  decide

/-! ## Pyramid resolution-level selection
(`ConverterImgcnv.thumbnail` lines 644-655 and `ConverterImgcnv.writeHistogram`
lines 861-875; float arithmetic modelled over the rationals).  The per-level
sizes are the `sizes` list the Python code computes from the base size and the
per-level scale factors; they enter the model directly. -/

/-- `relatives = [max(width / sz[0], height / sz[1]) for sz in sizes]`. -/
def relativesOf (width height : ℚ) (sizes : List (ℚ × ℚ)) : List ℚ :=
  sizes.map (fun sz => max (width / sz.1) (height / sz.2))

/-- `relatives = [i if i <= 1 else 0 for i in relatives]`. -/
def clampRelatives (rel : List ℚ) : List ℚ :=
  rel.map (fun i => if i ≤ 1 then i else 0)

/-- Python `max` over a list (the argument is nonempty in the code). -/
def pyListMax : List ℚ → ℚ
  | [] => 0
  | a :: t => t.foldl max a

/-- Python `max` over a list (the argument is nonempty in the code). -/
def pyListMin : List ℚ → ℚ
  | [] => 0
  | a :: t => t.foldl min a

/-- Python `list.index(x)`: index of the first element equal to `x`. -/
def pyIndex (l : List ℚ) (x : ℚ) : Nat :=
  l.findIdx (fun y => decide (y = x))

/-- The resolution level picked by `thumbnail`/`writeHistogram`:
`level = relatives.index(max(relatives))` after clamping relatives above 1
to 0. -/
def bestLevel (width height : ℚ) (sizes : List (ℚ × ℚ)) : Nat :=
  let rel := clampRelatives (relativesOf width height sizes)
  pyIndex rel (pyListMax rel)

/-- Level selection exactly as worded in claim C2: discard levels whose
relative exceeds 1, select the level that minimizes the retained relative,
and default to the base level when no level qualifies. -/
def claimLevelMin (width height : ℚ) (sizes : List (ℚ × ℚ)) : Nat :=
  let rel := relativesOf width height sizes
  let retained := rel.filter (fun i => decide (i ≤ 1))
  if retained = [] then 0 else pyIndex rel (pyListMin retained)

/-- C2 counterexample: levels of sizes [(1000,1000),(500,500)] and request
(300,300) give relatives [3/10, 3/5], both retained; the code takes the index
of the maximum and picks level 1, while the claim's minimizing rule picks
level 0. -/
theorem best_level_counterexample :
    bestLevel 300 300 [(1000, 1000), (500, 500)] = 1
    ∧ claimLevelMin 300 300 [(1000, 1000), (500, 500)] = 0
    ∧ bestLevel 300 300 [(1000, 1000), (500, 500)]
        ≠ claimLevelMin 300 300 [(1000, 1000), (500, 500)] := by
  have hrel : relativesOf 300 300 [(1000, 1000), (500, 500)] = [3/10, 3/5] := by
    norm_num [relativesOf]
  have hcode : bestLevel 300 300 [(1000, 1000), (500, 500)] = 1 := by
    rw [bestLevel, hrel]
    have hc : clampRelatives [3/10, 3/5] = [3/10, 3/5] := by norm_num [clampRelatives]
    rw [hc]
    have hm : pyListMax [3/10, 3/5] = 3/5 := by norm_num [pyListMax, max_def]
    rw [hm]
    norm_num [pyIndex, List.findIdx_cons]
  have hclaim : claimLevelMin 300 300 [(1000, 1000), (500, 500)] = 0 := by
    rw [claimLevelMin, hrel]
    have hf : ([3/10, 3/5] : List ℚ).filter (fun i => decide (i ≤ 1)) = [3/10, 3/5] := by
      norm_num [List.filter]
    rw [hf]
    have hm : pyListMin [3/10, 3/5] = 3/10 := by norm_num [pyListMin, min_def]
    rw [if_neg (by simp), hm]
    norm_num [pyIndex, List.findIdx_cons]
  exact ⟨hcode, hclaim, by rw [hcode, hclaim]; decide⟩

theorem le_foldl_max (t : List ℚ) (a : ℚ) : a ≤ t.foldl max a := by
  induction t generalizing a with
  | nil => simp
  | cons b t ih => exact le_trans (le_max_left a b) (ih (max a b))

theorem le_foldl_max_of_mem {t : List ℚ} {x : ℚ} (a : ℚ) (hx : x ∈ t) :
    x ≤ t.foldl max a := by
  induction t generalizing a with
  | nil => simp at hx
  | cons b t ih =>
    rcases List.mem_cons.mp hx with rfl | hx
    · exact le_trans (le_max_right a x) (le_foldl_max t (max a x))
    · exact ih (max a b) hx

theorem foldl_max_mem (t : List ℚ) (a : ℚ) : t.foldl max a = a ∨ t.foldl max a ∈ t := by
  induction t generalizing a with
  | nil => simp
  | cons b t ih =>
    rcases ih (max a b) with h | h
    · rcases max_choice a b with hm | hm
      · left; rw [List.foldl_cons, h, hm]
      · right; rw [List.foldl_cons, h, hm]; exact List.mem_cons_self b t
    · right; exact List.mem_cons_of_mem b h

theorem pyListMax_mem {l : List ℚ} (h : l ≠ []) : pyListMax l ∈ l := by
  match l with
  | a :: t =>
    rcases foldl_max_mem t a with h' | h'
    · rw [pyListMax, h']; exact List.mem_cons_self a t
    · exact List.mem_cons_of_mem a h'

theorem le_pyListMax {l : List ℚ} {x : ℚ} (hx : x ∈ l) : x ≤ pyListMax l := by
  match l with
  | a :: t =>
    rcases List.mem_cons.mp hx with rfl | hx
    · exact le_foldl_max t x
    · exact le_foldl_max_of_mem a hx

/-- C2 amended. Best-fit pyramid level selection: with positive request and
level sizes, the level chosen by the code (a) is in range, (b) when some
level qualifies (relative ≤ 1) has a qualifying relative that is greatest
among all qualifying levels (the code maximizes the retained relative — the
least-oversized level — rather than minimizing it), and (c) is the base
level 0 when no level qualifies.  For levels [(1000,1000),(250,250)] and
request (300,300), level 0 is selected. -/
theorem best_level_selection :
    (∀ (w h : ℚ) (sizes : List (ℚ × ℚ)),
      0 < w → 0 < h → (∀ sz ∈ sizes, 0 < sz.1 ∧ 0 < sz.2) → sizes ≠ [] →
      bestLevel w h sizes < sizes.length
      ∧ ((∃ r ∈ relativesOf w h sizes, r ≤ 1) →
          ∃ rL, (relativesOf w h sizes)[bestLevel w h sizes]? = some rL ∧ rL ≤ 1
            ∧ ∀ r ∈ relativesOf w h sizes, r ≤ 1 → r ≤ rL)
      ∧ ((∀ r ∈ relativesOf w h sizes, 1 < r) → bestLevel w h sizes = 0))
    ∧ bestLevel 300 300 [(1000, 1000), (250, 250)] = 0 := by
  constructor
  · intro w h sizes hw hh hsz hne
    set rel := relativesOf w h sizes with hrel
    set crel := clampRelatives rel with hcrel
    have hlenr : rel.length = sizes.length := by rw [hrel, relativesOf, List.length_map]
    have hlenc : crel.length = rel.length := by rw [hcrel, clampRelatives, List.length_map]
    have hrpos : ∀ r ∈ rel, 0 < r := by
      intro r hr
      rcases List.mem_map.mp hr with ⟨sz, hszm, rfl⟩
      exact lt_of_lt_of_le (div_pos hw (hsz sz hszm).1) (le_max_left _ _)
    have hcne : crel ≠ [] := by
      intro hc
      exact hne (by simpa [hlenc, hlenr] using congrArg List.length hc)
    have hM : pyListMax crel ∈ crel := pyListMax_mem hcne
    have hex : ∃ y ∈ crel, (fun y => decide (y = pyListMax crel)) y := ⟨_, hM, by simp⟩
    have hL : bestLevel w h sizes = pyIndex crel (pyListMax crel) := rfl
    have hLlt : bestLevel w h sizes < crel.length := by
      rw [hL, pyIndex]
      exact List.findIdx_lt_length_of_exists hex
    have hgetL : crel[bestLevel w h sizes]? = some (pyListMax crel) := by
      rw [hL, pyIndex]
      have h1 := List.findIdx_getElem (w := List.findIdx_lt_length_of_exists hex)
      have h2 := List.findIdx_of_getElem?_eq_some
        (p := fun y => decide (y = pyListMax crel))
        (List.getElem?_eq_getElem (List.findIdx_lt_length_of_exists hex))
      have h3 : crel[crel.findIdx (fun y => decide (y = pyListMax crel))] = pyListMax crel :=
        of_decide_eq_true h2
      rw [List.getElem?_eq_getElem (List.findIdx_lt_length_of_exists hex), h3]
    refine ⟨by omega, ?_, ?_⟩
    · rintro ⟨r0, hr0m, hr0le⟩
      have hr0pos : 0 < r0 := hrpos r0 hr0m
      have hr0c : r0 ∈ crel := by
        rw [hcrel, clampRelatives]
        exact List.mem_map.mpr ⟨r0, hr0m, by rw [if_pos hr0le]⟩
      have hMpos : 0 < pyListMax crel := lt_of_lt_of_le hr0pos (le_pyListMax hr0c)
      have hmap : crel[bestLevel w h sizes]?
          = (rel[bestLevel w h sizes]?).map (fun i => if i ≤ 1 then i else 0) := by
        rw [hcrel, clampRelatives, List.getElem?_map]
      rw [hgetL] at hmap
      have hrelL : ∃ rL, rel[bestLevel w h sizes]? = some rL
          ∧ (if rL ≤ 1 then rL else 0) = pyListMax crel := by
        cases hrl : rel[bestLevel w h sizes]? with
        | none => rw [hrl] at hmap; simp at hmap
        | some rL => rw [hrl] at hmap; exact ⟨rL, rfl, by simpa using hmap.symm⟩
      rcases hrelL with ⟨rL, hrLget, hrLclamp⟩
      have hrLle : rL ≤ 1 := by
        by_contra hgt
        rw [if_neg hgt] at hrLclamp
        exact absurd hrLclamp.symm (ne_of_gt hMpos)
      have hrLeq : rL = pyListMax crel := by rwa [if_pos hrLle] at hrLclamp
      refine ⟨rL, hrLget, hrLle, ?_⟩
      intro r hrm hrle
      have hrc : r ∈ crel := by
        rw [hcrel, clampRelatives]
        exact List.mem_map.mpr ⟨r, hrm, by rw [if_pos hrle]⟩
      rw [hrLeq]
      exact le_pyListMax hrc
    · intro hall
      have hzero : ∀ y ∈ crel, y = 0 := by
        intro y hy
        rcases List.mem_map.mp hy with ⟨r, hrm, rfl⟩
        rw [if_neg (not_le.mpr (hall r hrm))]
      have hM0 : pyListMax crel = 0 := hzero _ hM
      rcases hc : crel with _ | ⟨c, cs⟩
      · exact absurd hc hcne
      · rw [hc] at hM0 hzero
        have hc0 : c = 0 := hzero c (List.mem_cons_self c cs)
        rw [hL, hc, pyIndex, List.findIdx_cons]
        have hd : decide (c = pyListMax (c :: cs)) = true := by
          rw [hM0, hc0]; simp
        rw [hd]
        rfl
  · have hrel : relativesOf 300 300 [(1000, 1000), (250, 250)] = [3/10, 6/5] := by
      norm_num [relativesOf]
    rw [bestLevel, hrel]
    have hc : clampRelatives [3/10, 6/5] = [3/10, 0] := by norm_num [clampRelatives]
    rw [hc]
    have hm : pyListMax [3/10, 0] = 3/10 := by norm_num [pyListMax, max_def]
    rw [hm]
    norm_num [pyIndex, List.findIdx_cons]

/-- Closed instance of `best_level_selection`: with sizes
[(1000,1000),(500,500)] and request (300,300) the chosen level is in range. -/
theorem best_level_selection_witness :
    bestLevel 300 300 [(1000, 1000), (500, 500)] < 2 :=
  (best_level_selection.1 300 300 [(1000, 1000), (500, 500)] (by norm_num) (by norm_num)
    (by norm_num) (by simp)).1

/-! ## DICOM series geometry (`ConverterImgcnv.group_files_dicom`, lines 983-997) -/

/-- The value stored in the fourth slot of a data tuple by
`group_files_dicom`: `num_temp_p or num_frames or force_time`, i.e. the
first nonzero frame count as a Python int, else the `force_time` boolean. -/
inductive PyHint where
  | int (n : Int)
  | bool (b : Bool)
deriving DecidableEq

/-- The Python truthiness chain `num_temp_p or num_frames or force_time`. -/
def hintOf (num_temp_p num_frames : Int) (force_time : Bool) : PyHint :=
  if num_temp_p ≠ 0 then .int num_temp_p
  else if num_frames ≠ 0 then .int num_frames
  else .bool force_time

/-- One entry of the `data` list built by `group_files_dicom`: grouping key,
ordering key (`slice_loc or instance_num`), file path, frame hint. -/
structure DicomEntry where
  key : String
  okey : ℚ
  file : String
  hint : PyHint
deriving DecidableEq

/-- The effective `frame_num` of a group: the first member's hint, with the
Python check `if frame_num is True: frame_num = len(l)` applied, and the
untyped comparison `frame_num > 0` reading `False` as 0. -/
def frameNumOf (g : List DicomEntry) : Int :=
  match g with
  | [] => 0
  | e :: _ =>
    match e.hint with
    | .int n => n
    | .bool true => (g.length : Int)
    | .bool false => 0

/-- The geometry record `{'t': ..., 'z': ...}` produced for one group by
`group_files_dicom` (lines 988-997), returned as the pair `(t, z)`. -/
def geometryOf (g : List DicomEntry) : Int × Int :=
  let n : Int := (g.length : Int)
  let fn : Int := frameNumOf g
  if n = 1 then (1, 1)
  else if fn > 0 then (fn, n / fn)
  else (1, n)

/-- C3. Series geometry inference: a single-member group yields (Z=1,T=1);
otherwise a positive numeric frame hint `k` yields T = k and Z =
group-size / k (integer division); otherwise T = 1, Z = group-size, with a
true force-time flag acting as hint = group-size and so yielding Z = 1,
T = group-size.  A 10-file group with frame-hint 5 yields (Z=2,T=5). -/
theorem series_geometry (g : List DicomEntry) :
    (g.length = 1 → geometryOf g = (1, 1))
    ∧ (∀ e t, g = e :: t → 1 < g.length →
        (∀ k, e.hint = .int k → 0 < k →
          geometryOf g = (k, (g.length : Int) / k))
        ∧ (∀ k, e.hint = .int k → k ≤ 0 → geometryOf g = (1, (g.length : Int)))
        ∧ (e.hint = .bool false → geometryOf g = (1, (g.length : Int)))
        ∧ (e.hint = .bool true → geometryOf g = ((g.length : Int), 1))) := by
  constructor
  · intro h1
    rw [geometryOf, if_pos (by exact_mod_cast h1)]
  · rintro e t rfl hlen
    have hne : ((e :: t).length : Int) ≠ 1 := by
      have := hlen
      omega
    refine ⟨?_, ?_, ?_, ?_⟩
    · intro k hk hkpos
      have hfn : frameNumOf (e :: t) = k := by simp [frameNumOf, hk]
      rw [geometryOf, if_neg hne, if_pos (by rw [hfn]; exact hkpos), hfn]
    · intro k hk hkle
      have hfn : frameNumOf (e :: t) = k := by simp [frameNumOf, hk]
      rw [geometryOf, if_neg hne, if_neg (by rw [hfn]; omega)]
    · intro hk
      have hfn : frameNumOf (e :: t) = 0 := by simp [frameNumOf, hk]
      rw [geometryOf, if_neg hne, if_neg (by rw [hfn]; omega)]
    · intro hk
      have hfn : frameNumOf (e :: t) = ((e :: t).length : Int) := by simp [frameNumOf, hk]
      rw [geometryOf, if_neg hne, if_pos (by rw [hfn]; omega)]
      rw [hfn, Int.ediv_self (by omega)]

/-- Closed instance of `series_geometry`: a 10-member group whose first entry
has numeric frame hint 5 gets geometry T = 5, Z = 2. -/
theorem series_geometry_witness :
    geometryOf (List.replicate 10 ⟨"k", 0, "f", .int 5⟩) = (5, 2) := by
  have h := (series_geometry (List.replicate 10 ⟨"k", 0, "f", .int 5⟩)).2
    ⟨"k", 0, "f", .int 5⟩ (List.replicate 9 ⟨"k", 0, "f", .int 5⟩) (by rfl) (by simp)
  have h5 := (h.1) 5 rfl (by decide)
  rw [h5]
  decide

/-! ## Transient retry (`ConverterImgcnv.run_command`, lines 325-331; the same
retry block appears inline in `ConverterImgcnv.run`, lines 364-368 and in
`run_read`, lines 339-342) -/

/-- One invocation result of `call_imgcnvlib`: exit code and output. -/
structure CallRes where
  retcode : Int
  out : String
deriving DecidableEq

/-- `run_command` with the sequence of results successive `call_imgcnvlib`
invocations would produce: returns the final `(retcode, out)` pair actually
held after the retry block, together with the number of invocations made. -/
def runCommandModel (calls : Nat → CallRes) : (Int × String) × Nat :=
  let r0 := calls 0
  if r0.retcode = 100 ∨ r0.retcode = 101 then
    (((calls 1).retcode, (calls 1).out), 2)
  else
    ((r0.retcode, r0.out), 1)

/-- C7. Transient retry exactly once: a first exit code of 100 or 101 causes
exactly one re-invocation, whose result is used as-is (even if it is again
100/101); any other first exit code causes no retry. -/
theorem transient_retry_once (calls : Nat → CallRes) :
    ((calls 0).retcode = 100 ∨ (calls 0).retcode = 101 →
      runCommandModel calls = (((calls 1).retcode, (calls 1).out), 2))
    ∧ ((calls 0).retcode ≠ 100 → (calls 0).retcode ≠ 101 →
      runCommandModel calls = (((calls 0).retcode, (calls 0).out), 1))
    ∧ (runCommandModel calls).2 ≤ 2 := by
  refine ⟨?_, ?_, ?_⟩
  · intro h
    rw [runCommandModel, if_pos h]
  · intro h1 h2
    rw [runCommandModel, if_neg (by tauto)]
  · rw [runCommandModel]
    split <;> simp

/-- Closed instance of `transient_retry_once`: a run whose first call exits
100 and whose second exits 0 makes exactly two invocations and returns the
second result. -/
theorem transient_retry_once_witness :
    runCommandModel (fun i => if i = 0 then ⟨100, "busy"⟩ else ⟨0, "done"⟩)
      = ((0, "done"), 2) := by
  have h := (transient_retry_once
    (fun i => if i = 0 then ⟨100, "busy"⟩ else ⟨0, "done"⟩)).1 (by left; rfl)
  rw [h]
  rfl

/-! ## Scoped file guard (`bqcore/bq/util/locks.py`, POSIX branch)

The model follows the `os.name != "nt"` code path of `Locks.acquire` and
`Locks.release` with the default mode `"wb"` (the only mode the orchestrator
uses), tracking the guard's own fields and the world state it touches: the
output file and the registry read/write holdings. -/

/-- The lock-holding fields of a `Locks` object: `thread_r`/`thread_w`
(registry read/write lock held), `rf`/`wf` (OS-level advisory shared /
exclusive file lock held through an open handle), `locked`. -/
structure GuardState where
  thread_r : Bool := false
  thread_w : Bool := false
  rf : Bool := false
  wf : Bool := false
  locked : Bool := false
deriving DecidableEq

/-- World state seen by one guard: size of the output file (`none` =
absent), reader count held on the input key and writer flag held on the
output key in the lock registry. -/
structure World where
  outFile : Option Nat
  regReaders : Nat
  regWriter : Bool
deriving DecidableEq

/-- Constructor flags of `Locks.__init__` (with `mode` fixed to the default
truncating `"wb"`). -/
structure LockParams where
  hasInput : Bool
  hasOutput : Bool
  failonexist : Bool
  failonread : Bool
deriving DecidableEq

/-- Outcomes of the individual lock acquisitions attempted inside
`Locks.acquire`: registry read, OS shared file lock (first attempt),
registry write, OS exclusive file lock. -/
structure LockEnv where
  regReadOk : Bool
  osReadOk : Bool
  regWriteOk : Bool
  osWriteOk : Bool
deriving DecidableEq

/-- The zero-size cleanup in `Locks.release` (lines 119-121): a zero-length
output file is unlinked. -/
def zeroClean (o : Option Nat) : Option Nat :=
  match o with
  | some 0 => none
  | o => o

/-- `Locks.release` (lines 113-145): close/unlock the write handle (deleting
a zero-size output), release the registry write lock, close the read handle,
release the registry read lock, clear `locked`. -/
def releaseModel (p : LockParams) (g : GuardState) (w : World) : GuardState × World :=
  let s1 : GuardState × World :=
    if g.wf then ({ g with wf := false }, { w with outFile := zeroClean w.outFile })
    else (g, w)
  let s2 : GuardState × World :=
    if p.hasOutput && s1.1.thread_w then
      ({ s1.1 with thread_w := false }, { s1.2 with regWriter := false })
    else s1
  let s3 : GuardState × World :=
    if s2.1.rf then ({ s2.1 with rf := false }, s2.2) else s2
  let s4 : GuardState × World :=
    if p.hasInput && s3.1.thread_r then
      ({ s3.1 with thread_r := false }, { s3.2 with regReaders := s3.2.regReaders - 1 })
    else s3
  ({ s4.1 with locked := false }, s4.2)

/-- The output phase of `Locks.acquire` (lines 82-111): registry write lock,
`failonexist` existence check, `open(ofnm, "wb")` (creating or truncating
the output to zero bytes), then the non-blocking OS exclusive lock. -/
def acquireOutputPhase (p : LockParams) (e : LockEnv) (g : GuardState) (w : World) :
    GuardState × World :=
  if p.hasOutput then
    if !e.regWriteOk then releaseModel p g w
    else
      let g1 : GuardState := { g with thread_w := true }
      let w1 : World := { w with regWriter := true }
      if p.failonexist && w1.outFile.isSome then releaseModel p g1 w1
      else
        let w2 : World := { w1 with outFile := some 0 }
        if !e.osWriteOk then releaseModel p g1 w2
        else ({ g1 with wf := true, locked := true }, w2)
  else ({ g with locked := true }, w)

/-- `Locks.acquire` (lines 52-111), POSIX branch: registry read lock on the
input (bailing without any release on failure), OS shared lock with retry
loop (bailing while still holding the registry read lock when `failonread`
and the first attempt fails), then the output phase. -/
def acquireModel (p : LockParams) (e : LockEnv) (w : World) : GuardState × World :=
  if p.hasInput then
    if !e.regReadOk then ({}, w)
    else
      let g1 : GuardState := { thread_r := true }
      let w1 : World := { w with regReaders := w.regReaders + 1 }
      if p.failonread && !e.osReadOk then (g1, w1)
      else acquireOutputPhase p e { g1 with rf := true } w1
  else acquireOutputPhase p e {} w

/-! ## Converter run orchestration (`ConverterImgcnv.run`, lines 345-391) -/

/-- Effect of one converter invocation: exit code, and the output-file state
the subprocess leaves behind. -/
structure ConvEffect where
  retcode : Int
  outAfter : Option Nat
deriving DecidableEq

/-- Result classification of `ConverterImgcnv.run` for a request that has an
output path: raised `ImageServiceFuture`, raised timeout exception (412),
returned `None`, or returned the output path. -/
inductive RunOutcome where
  | future
  | timeout
  | failed
  | ok
deriving DecidableEq

/-- `os.path.exists(ofnm) and os.path.getsize(ofnm) > 16` (line 358). -/
def bigEnough (o : Option Nat) : Bool :=
  match o with
  | some s => decide (s > 16)
  | none => false

/-- The effective exit code after the retry block (lines 365-368). -/
def effRetcode (c1 c2 : ConvEffect) : Int :=
  if c1.retcode = 100 ∨ c1.retcode = 101 then c2.retcode else c1.retcode

/-- The output-file state after the (retried) invocation. -/
def effOut (c1 c2 : ConvEffect) : Option Nat :=
  if c1.retcode = 100 ∨ c1.retcode = 101 then c2.outAfter else c1.outAfter

/-- Number of converter invocations made (lines 365-368). -/
def effCalls (c1 c2 : ConvEffect) : Nat :=
  if c1.retcode = 100 ∨ c1.retcode = 101 then 2 else 1

/-- The post-run validation of `ConverterImgcnv.run` (lines 382-391): a read
lock on the produced output when it exists (raising `ImageServiceFuture`
when unavailable), then the minimum-size check that deletes an undersized
output and returns `None`. -/
def runPostPhase (o : Option Nat) (postLockOk : Bool) (minSize : Nat) (n : Nat) :
    RunOutcome × Option Nat × Nat :=
  if o.isSome && !postLockOk then (.future, o, n)
  else
    match o with
    | some s => if s < minSize then (.failed, none, n) else (.ok, o, n)
    | none => (.ok, o, n)

/-- `ConverterImgcnv.run` (lines 345-391) for a request with an output path:
`locked` is the guard acquisition result, `preOut` the output-file state
right after acquisition (what the line-358 check sees), `c1`/`c2` the two
possible converter invocations, `postLockOk` the line-383 read lock,
`minSize` the class constant `MINIMUM_FILE_SIZE`.  Returns the outcome, the
final output-file state, and how many converter invocations were made.
Leaving the `with` block runs `Locks.release`, hence `zeroClean`. -/
def runModel (locked nooverwrite postLockOk : Bool) (preOut : Option Nat)
    (c1 c2 : ConvEffect) (minSize : Nat) : RunOutcome × Option Nat × Nat :=
  if locked then
    if bigEnough preOut && nooverwrite then
      runPostPhase (zeroClean preOut) postLockOk minSize 0
    else
      let rc := effRetcode c1 c2
      let o := effOut c1 c2
      let n := effCalls c1 c2
      if rc = 99 then (.timeout, none, n)
      else if rc ≠ 0 then (.failed, zeroClean o, n)
      else runPostPhase (zeroClean o) postLockOk minSize n
  else (.future, preOut, 0)

/-- C6. No incomplete output on failure: (a) a timeout exit code (99) from
the converter deletes any existing output before the typed timeout failure
is reported; (b) a successful run outcome never carries an output file
smaller than the minimum-size floor — in particular, on exit code 0 an
existing but undersized output is deleted and failure (`None`) is
reported. -/
theorem run_no_incomplete_output (locked nooverwrite postLockOk : Bool)
    (preOut : Option Nat) (c1 c2 : ConvEffect) (minSize : Nat) :
    (locked = true → (bigEnough preOut && nooverwrite) = false → effRetcode c1 c2 = 99 →
      runModel locked nooverwrite postLockOk preOut c1 c2 minSize
        = (.timeout, none, effCalls c1 c2))
    ∧ (locked = true → (bigEnough preOut && nooverwrite) = false → postLockOk = true →
        effRetcode c1 c2 = 0 →
        ∀ s, zeroClean (effOut c1 c2) = some s → s < minSize →
          runModel locked nooverwrite postLockOk preOut c1 c2 minSize
            = (.failed, none, effCalls c1 c2))
    ∧ (∀ s, (runModel locked nooverwrite postLockOk preOut c1 c2 minSize).1 = .ok →
        (runModel locked nooverwrite postLockOk preOut c1 c2 minSize).2.1 = some s →
        minSize ≤ s) := by
  refine ⟨?_, ?_, ?_⟩
  · intro hl hpre h99
    rw [runModel, if_pos (by rw [hl]), if_neg (by rw [hpre]; simp), if_pos h99]
  · intro hl hpre hplo h0 s hs hlt
    rw [runModel, if_pos (by rw [hl]), if_neg (by rw [hpre]; simp),
      if_neg (by rw [h0]; decide), if_neg (by rw [h0]; simp)]
    rw [runPostPhase.eq_def, hs]
    simp [hplo, hlt]
  · intro s hok hout
    rw [runModel] at hok hout
    by_cases hl : locked = true
    · rw [if_pos (by rw [hl])] at hok hout
      by_cases hpre : (bigEnough preOut && nooverwrite) = true
      · rw [if_pos hpre] at hok hout
        rw [runPostPhase.eq_def] at hok hout
        by_cases hplo : (zeroClean preOut).isSome && !postLockOk
        · rw [if_pos hplo] at hok; simp at hok
        · rw [if_neg hplo] at hok hout
          cases hzc : zeroClean preOut with
          | none => rw [hzc] at hout; exact absurd hout (by simp)
          | some t =>
            rw [hzc] at hok hout
            by_cases hsz : t < minSize
            · simp [hsz] at hok
            · simp [hsz] at hout
              omega
      · rw [if_neg hpre] at hok hout
        by_cases h99 : effRetcode c1 c2 = 99
        · rw [if_pos h99] at hok; simp at hok
        · rw [if_neg h99] at hok hout
          by_cases hnz : effRetcode c1 c2 ≠ 0
          · rw [if_pos hnz] at hok; simp at hok
          · rw [if_neg hnz] at hok hout
            rw [runPostPhase.eq_def] at hok hout
            by_cases hplo : (zeroClean (effOut c1 c2)).isSome && !postLockOk
            · rw [if_pos hplo] at hok; simp at hok
            · rw [if_neg hplo] at hok hout
              cases hzc : zeroClean (effOut c1 c2) with
              | none => rw [hzc] at hout; exact absurd hout (by simp)
              | some t =>
                rw [hzc] at hok hout
                by_cases hsz : t < minSize
                · simp [hsz] at hok
                · simp [hsz] at hout
                  omega
    · rw [if_neg hl] at hok
      simp at hok

/-- Closed instance of `run_no_incomplete_output`: a locked run whose only
invocation times out (exit 99) having written a partial 1000-byte output
reports the timeout with the output deleted. -/
theorem run_no_incomplete_output_witness :
    runModel true false true none ⟨99, some 1000⟩ ⟨0, some 1000⟩ 16
      = (.timeout, none, 1) :=
  (run_no_incomplete_output true false true none ⟨99, some 1000⟩ ⟨0, some 1000⟩ 16).1
    rfl rfl rfl

/-- C8. Fail-on-exists abandon: a guard with an output path and
`failonexist` whose input phase succeeds and whose registry write lock is
granted, facing an already-existing output file, abandons: the guard ends
inert (no registry or OS lock held, `locked` false) with the world exactly
as before — the registry read/write holdings restored and the pre-existing
output untouched — and a run seeing the unlocked guard raises
`ImageServiceFuture` without invoking the converter. -/
theorem fail_on_exists_abandon (p : LockParams) (e : LockEnv) (w : World) (n : Nat)
    (hout : p.hasOutput = true) (hfe : p.failonexist = true)
    (hexists : w.outFile = some n) (hwr : w.regWriter = false)
    (hrr : p.hasInput = true → e.regReadOk = true)
    (hor : p.hasInput = true → p.failonread = true → e.osReadOk = true)
    (hrw : e.regWriteOk = true) :
    acquireModel p e w = ({}, w)
    ∧ (∀ (nov plo : Bool) (c1 c2 : ConvEffect) (m : Nat),
        runModel (acquireModel p e w).1.locked nov plo (acquireModel p e w).2.outFile c1 c2 m
          = (.future, w.outFile, 0)) := by
  have h1 : acquireModel p e w = ({}, w) := by
    rcases p with ⟨hi, ho, fe, fr⟩
    rcases e with ⟨rr, osr, rww, osw⟩
    rcases w with ⟨of, nr, wrt⟩
    simp only at hout hfe hrr hor hrw hexists hwr
    subst hout hfe hrw hexists hwr
    cases hi with
    | false =>
      simp [acquireModel, acquireOutputPhase, releaseModel]
    | true =>
      rw [hrr rfl]
      cases fr with
      | false =>
        simp [acquireModel, acquireOutputPhase, releaseModel]
      | true =>
        rw [hor rfl rfl]
        simp [acquireModel, acquireOutputPhase, releaseModel]
  refine ⟨h1, ?_⟩
  intro nov plo c1 c2 m
  rw [h1]
  simp [runModel]

/-- Closed instance of `fail_on_exists_abandon`: input+output guard with
`failonexist`, all lock acquisitions succeeding, output already present with
7 bytes: acquire leaves the guard inert and the world unchanged. -/
theorem fail_on_exists_abandon_witness :
    acquireModel ⟨true, true, true, false⟩ ⟨true, true, true, true⟩ ⟨some 7, 0, false⟩
      = ({}, ⟨some 7, 0, false⟩) :=
  (fail_on_exists_abandon ⟨true, true, true, false⟩ ⟨true, true, true, true⟩
    ⟨some 7, 0, false⟩ 7 rfl rfl rfl rfl (fun _ => rfl) (fun _ _ => rfl) rfl).1

/-- C9. On POSIX a successful `Locks.acquire` with an output path has opened
the output with the default truncating mode `"wb"` before taking the
exclusive advisory lock, so immediately after a successful acquire the
output file exists with length zero — any pre-existing content is already
destroyed — and the orchestrator's post-acquire check
`os.path.getsize(ofnm) > 16` (`bigEnough`) can never hold. -/
theorem acquire_truncates_output (p : LockParams) (e : LockEnv) (w : World)
    (hout : p.hasOutput = true)
    (hlocked : (acquireModel p e w).1.locked = true) :
    (acquireModel p e w).2.outFile = some 0
    ∧ bigEnough (acquireModel p e w).2.outFile = false := by
  rcases p with ⟨hi, ho, fe, fr⟩
  rcases e with ⟨rr, osr, rww, osw⟩
  rcases w with ⟨of, nr, wrt⟩
  simp only at hout
  subst hout
  cases hi <;> cases rr <;> cases fr <;> cases osr <;> cases rww <;> cases fe <;> cases osw <;>
    cases of <;>
    simp_all [acquireModel, acquireOutputPhase, releaseModel, bigEnough, zeroClean]

/-- Closed instance of `acquire_truncates_output`: an output-only guard over
a pre-existing 1000-byte output file, with all acquisitions succeeding and
`failonexist` off, ends with a zero-byte output and a failing size check. -/
theorem acquire_truncates_output_witness :
    (acquireModel ⟨false, true, false, false⟩ ⟨true, true, true, true⟩
        ⟨some 1000, 0, false⟩).2.outFile = some 0
    ∧ bigEnough (acquireModel ⟨false, true, false, false⟩ ⟨true, true, true, true⟩
        ⟨some 1000, 0, false⟩).2.outFile = false :=
  acquire_truncates_output ⟨false, true, false, false⟩ ⟨true, true, true, true⟩
    ⟨some 1000, 0, false⟩ rfl (by decide)

/-! ## Hashed lock registry

Modelled from the spec: the `HashedReadWriteLock` class
(`bq/util/read_write_locks.py`, imported by `bqcore/bq/util/locks.py`) is
not among the available sources; its per-key reader/writer semantics are
modelled from spec section 4.1: multiple concurrent readers are permitted on
a key, a writer excludes all readers and other writers on that key,
`timeout = 0` is a non-blocking probe that fails immediately when the lock
is unavailable, and entries are per-key. -/

/-- Modelled from the spec: the per-key state of the hashed reader/writer
lock registry — a reader count and a writer flag. -/
structure KeyLock where
  readers : Nat := 0
  writer : Bool := false
deriving DecidableEq

/-- Modelled from the spec: a read lock is available whenever no writer
holds the key. -/
def canRead (s : KeyLock) : Bool := !s.writer

/-- Modelled from the spec: a write lock is available only when no writer
holds the key and no readers hold it. -/
def canWrite (s : KeyLock) : Bool := !s.writer && s.readers == 0

/-- Modelled from the spec: `acquire_read` as a non-blocking probe —
succeeds (incrementing the reader count) iff no writer holds the key. -/
def acquireRead (s : KeyLock) : Option KeyLock :=
  if canRead s then some { s with readers := s.readers + 1 } else none

/-- Modelled from the spec: `acquire_write` as a non-blocking probe —
succeeds iff the key is free of writers and readers. -/
def acquireWrite (s : KeyLock) : Option KeyLock :=
  if canWrite s then some { s with writer := true } else none

/-- Modelled from the spec: `release_read`. -/
def releaseRead (s : KeyLock) : KeyLock := { s with readers := s.readers - 1 }

/-- Modelled from the spec: `release_write`. -/
def releaseWrite (s : KeyLock) : KeyLock := { s with writer := false }

/-- Modelled from the spec: the registry maps arbitrary keys (absolute
paths) to per-key lock entries, defaulting to a free entry. -/
def Registry := String → KeyLock

/-- Modelled from the spec: updating one key's entry. -/
def regSet (reg : Registry) (k : String) (s : KeyLock) : Registry :=
  fun k' => if k' = k then s else reg k'

/-- C10. Reader/writer exclusion on a key: (a) readers never block each
other — on a writer-free key `acquire_read` succeeds no matter how many
readers already hold it; (b) a held writer excludes all readers and all
other writers on that key; (c) held readers exclude writers; (d) after the
writer releases, the key is available to readers and writers again; (e) all
of this is per key — an acquisition on key `k` leaves every other key's
entry unchanged. -/
theorem registry_reader_writer_exclusion :
    (∀ s : KeyLock, s.writer = false → ∃ s', acquireRead s = some s'
        ∧ s'.readers = s.readers + 1)
    ∧ (∀ s : KeyLock, s.writer = true → acquireRead s = none ∧ acquireWrite s = none)
    ∧ (∀ s : KeyLock, 0 < s.readers → acquireWrite s = none)
    ∧ (∀ s s' : KeyLock, acquireWrite s = some s' →
        canRead (releaseWrite s') = true ∧ canWrite (releaseWrite s') = true)
    ∧ (∀ (reg : Registry) (k k' : String) (s : KeyLock), k' ≠ k →
        regSet reg k s k' = reg k') := by
  refine ⟨?_, ?_, ?_, ?_, ?_⟩
  · intro s hw
    refine ⟨{ s with readers := s.readers + 1 }, ?_, rfl⟩
    rw [acquireRead, if_pos (by rw [canRead, hw]; rfl)]
  · intro s hw
    constructor
    · rw [acquireRead, if_neg (by rw [canRead, hw]; simp)]
    · rw [acquireWrite, if_neg (by rw [canWrite, hw]; simp)]
  · intro s hr
    rw [acquireWrite, if_neg (by rw [canWrite]; simp; omega)]
  · intro s s' h
    rw [acquireWrite] at h
    by_cases hc : canWrite s = true
    · rw [if_pos hc] at h
      cases h
      rw [canWrite] at hc
      constructor
      · rw [canRead, releaseWrite]
        rfl
      · rw [canWrite, releaseWrite]
        simpa using (Bool.and_eq_true .. |>.mp hc).2
    · rw [if_neg hc] at h
      cases h
  · intro reg k k' s hk
    rw [regSet, if_neg hk]

/-- Closed instance of `registry_reader_writer_exclusion`: a key already
held by 3 readers still admits a fourth reader. -/
theorem registry_reader_writer_exclusion_witness :
    ∃ s', acquireRead { readers := 3, writer := false } = some s' ∧ s'.readers = 3 + 1 :=
  registry_reader_writer_exclusion.1 { readers := 3, writer := false } rfl

/-! ## DICOM series assembly ordering (`group_files_dicom`, lines 977-980)

`data = sorted(data, key=lambda x: x[0])`, then `itertools.groupby` on the
grouping key, then each group `sorted(..., key=lambda x: x[1])`.  Python's
`sorted` is stable, and so is `List.mergeSort`; since the stable sort of a
list under a total preorder is unique, `mergeSort` embeds `sorted`
faithfully. -/

/-- `key=lambda x: x[0]` comparison: grouping keys as strings. -/
def keyLE (a b : DicomEntry) : Bool := decide (a.key ≤ b.key)

/-- `key=lambda x: x[1]` comparison: ordering keys. -/
def okeyLE (a b : DicomEntry) : Bool := decide (a.okey ≤ b.okey)

/-- Membership test for one grouping key. -/
def keyIs (k : String) (e : DicomEntry) : Bool := decide (e.key = k)

/-- `itertools.groupby(..., lambda x: x[0])`: maximal consecutive runs of
entries sharing the grouping key. -/
def groupRuns : List DicomEntry → List (List DicomEntry)
  | [] => []
  | a :: t =>
    match groupRuns t with
    | [] => [[a]]
    | [] :: gs => [[a]] ++ gs
    | (b :: g) :: gs =>
      if a.key = b.key then (a :: b :: g) :: gs
      else [a] :: (b :: g) :: gs

/-- Lines 977-980 of `group_files_dicom`: stable-sort the data tuples by
grouping key, split into consecutive equal-key groups, stable-sort each
group by ordering key. -/
def groupFilesDicom (data : List DicomEntry) : List (List DicomEntry) :=
  (groupRuns (data.mergeSort keyLE)).map (fun g => g.mergeSort okeyLE)

/-- C4 counterexample: two entries with identical grouping and ordering keys
but distinct files.  The two input orders are permutations of each other
with identical per-file metadata, yet the assembler emits the group in two
different orders (both sorts are stable, so ties keep input order). -/
theorem group_determinism_counterexample :
    List.Perm [(⟨"k", 0, "a", .bool false⟩ : DicomEntry), ⟨"k", 0, "b", .bool false⟩]
      [⟨"k", 0, "b", .bool false⟩, ⟨"k", 0, "a", .bool false⟩]
    ∧ groupFilesDicom [⟨"k", 0, "a", .bool false⟩, ⟨"k", 0, "b", .bool false⟩]
        = [[⟨"k", 0, "a", .bool false⟩, ⟨"k", 0, "b", .bool false⟩]]
    ∧ groupFilesDicom [⟨"k", 0, "b", .bool false⟩, ⟨"k", 0, "a", .bool false⟩]
        = [[⟨"k", 0, "b", .bool false⟩, ⟨"k", 0, "a", .bool false⟩]]
    ∧ groupFilesDicom [⟨"k", 0, "a", .bool false⟩, ⟨"k", 0, "b", .bool false⟩]
        ≠ groupFilesDicom [⟨"k", 0, "b", .bool false⟩, ⟨"k", 0, "a", .bool false⟩] := by
  have hms : ∀ x y : DicomEntry, x.key = y.key → x.okey = y.okey →
      List.mergeSort [x, y] keyLE = [x, y] ∧ List.mergeSort [x, y] okeyLE = [x, y] := by
    intro x y hk ho
    constructor
    · refine List.mergeSort_of_sorted ?_
      simp [List.pairwise_cons, keyLE, hk]
    · refine List.mergeSort_of_sorted ?_
      simp [List.pairwise_cons, okeyLE, ho]
  have hab := hms ⟨"k", 0, "a", .bool false⟩ ⟨"k", 0, "b", .bool false⟩ rfl rfl
  have hba := hms ⟨"k", 0, "b", .bool false⟩ ⟨"k", 0, "a", .bool false⟩ rfl rfl
  have hrun : ∀ x y : DicomEntry, x.key = y.key →
      groupRuns [x, y] = [[x, y]] := by
    intro x y hk
    simp [groupRuns, hk]
  have hrab := hrun ⟨"k", 0, "a", .bool false⟩ ⟨"k", 0, "b", .bool false⟩ rfl
  have hrba := hrun ⟨"k", 0, "b", .bool false⟩ ⟨"k", 0, "a", .bool false⟩ rfl
  refine ⟨List.Perm.swap _ _ _, ?_, ?_, ?_⟩
  · rw [groupFilesDicom, hab.1, hrab]
    simp [hab.2]
  · rw [groupFilesDicom, hba.1, hrba]
    simp [hba.2]
  · rw [groupFilesDicom, hab.1, hrab, groupFilesDicom, hba.1, hrba]
    simp [hab.2, hba.2]

theorem groupRuns_cons_eq (a : DicomEntry) (t : List DicomEntry) :
    groupRuns (a :: t)
      = (a :: t.takeWhile (keyIs a.key)) :: groupRuns (t.dropWhile (keyIs a.key)) := by
  induction t generalizing a with
  | nil => simp [groupRuns]
  | cons c t ih =>
    by_cases h : a.key = c.key
    · rw [groupRuns, ih c]
      dsimp only
      rw [if_pos h, h]
      rw [List.takeWhile_cons, List.dropWhile_cons]
      simp [keyIs]
    · rw [groupRuns, ih c]
      dsimp only
      rw [if_neg h, List.takeWhile_cons, List.dropWhile_cons]
      have hh : keyIs a.key c = false := by
        simp [keyIs]
        exact fun hc => h hc.symm
      rw [hh]
      simp [← ih c]

theorem groupRuns_mem : ∀ (n : Nat) (l : List DicomEntry), l.length ≤ n →
    ∀ g ∈ groupRuns l, ∀ x ∈ g, x ∈ l := by
  intro n
  induction n with
  | zero =>
    intro l hl g hg x hx
    rw [List.length_eq_zero.mp (Nat.le_zero.mp hl)] at hg
    simp [groupRuns] at hg
  | succ n ih =>
    intro l hl g hg x hx
    match l with
    | [] => simp [groupRuns] at hg
    | a :: t =>
      rw [groupRuns_cons_eq] at hg
      rcases List.mem_cons.mp hg with rfl | hg'
      · rcases List.mem_cons.mp hx with rfl | hx'
        · exact List.mem_cons_self x t
        · exact List.mem_cons_of_mem a ((List.takeWhile_sublist _).mem hx')
      · have hd : (t.dropWhile (keyIs a.key)).length ≤ n := by
          have := (List.dropWhile_sublist (l := t) (keyIs a.key)).length_le
          simp at hl
          omega
        exact List.mem_cons_of_mem a
          ((List.dropWhile_sublist _).mem (ih _ hd g hg' x hx))

theorem groupRuns_same_key : ∀ (n : Nat) (l : List DicomEntry), l.length ≤ n →
    ∀ g ∈ groupRuns l, ∀ x ∈ g, ∀ y ∈ g, x.key = y.key := by
  intro n
  induction n with
  | zero =>
    intro l hl g hg x hx y hy
    rw [List.length_eq_zero.mp (Nat.le_zero.mp hl)] at hg
    simp [groupRuns] at hg
  | succ n ih =>
    intro l hl g hg x hx y hy
    match l with
    | [] => simp [groupRuns] at hg
    | a :: t =>
      rw [groupRuns_cons_eq] at hg
      rcases List.mem_cons.mp hg with rfl | hg'
      · have hkey : ∀ z ∈ a :: t.takeWhile (keyIs a.key), z.key = a.key := by
          intro z hz
          rcases List.mem_cons.mp hz with rfl | hz'
          · rfl
          · have := List.mem_takeWhile_imp hz'
            rw [keyIs] at this
            exact of_decide_eq_true this
        rw [hkey x hx, hkey y hy]
      · have hd : (t.dropWhile (keyIs a.key)).length ≤ n := by
          have := (List.dropWhile_sublist (l := t) (keyIs a.key)).length_le
          simp at hl
          omega
        exact ih _ hd g hg' x hx y hy

theorem takeWhile_filter_of_sorted (k : String) :
    ∀ (t : List DicomEntry), t.Pairwise (fun a b => a.key ≤ b.key) →
      (∀ e ∈ t, k ≤ e.key) →
      t.takeWhile (keyIs k) = t.filter (keyIs k)
      ∧ t.dropWhile (keyIs k) = t.filter (fun e => !(keyIs k e)) := by
  intro t
  induction t with
  | nil => intro _ _; exact ⟨rfl, rfl⟩
  | cons c t ih =>
    intro hs hk
    have hck : k ≤ c.key := hk c (List.mem_cons_self c t)
    rcases List.pairwise_cons.mp hs with ⟨hc, ht⟩
    by_cases h : c.key = k
    · have hpc : keyIs k c = true := by simp [keyIs, h]
      have ihx := ih ht (fun e he => h ▸ hc e he)
      rw [List.takeWhile_cons, List.dropWhile_cons, hpc]
      constructor
      · rw [List.filter_cons_of_pos hpc, ihx.1]
        simp
      · rw [List.filter_cons_of_neg (by simp [hpc]), ihx.2]
        simp
    · have hlt : k < c.key := lt_of_le_of_ne hck (fun he => h he.symm)
      have hpc : keyIs k c = false := by
        simp [keyIs]
        exact fun he => h he
      have hall : ∀ e ∈ t, keyIs k e = false := by
        intro e he
        have : k < e.key := lt_of_lt_of_le hlt (hc e he)
        simp [keyIs]
        exact fun hke => absurd hke (ne_of_gt this)
      constructor
      · rw [List.takeWhile_cons, hpc]
        rw [List.filter_cons_of_neg (by simp [hpc])]
        rw [List.filter_eq_nil_iff.mpr (fun e he => by simp [hall e he])]
        simp
      · rw [List.dropWhile_cons, hpc]
        rw [List.filter_cons_of_pos (by simp [hpc])]
        have : t.filter (fun e => !(keyIs k e)) = t := by
          apply List.filter_eq_self.mpr
          intro e he
          simp [hall e he]
        rw [this]
        simp

theorem eq_of_perm_of_pairwise_antisymm {α : Type} {r : α → α → Prop} :
    ∀ (l₁ l₂ : List α), l₁.Perm l₂ → l₁.Pairwise r → l₂.Pairwise r →
      (∀ a ∈ l₁, ∀ b ∈ l₁, r a b → r b a → a = b) → l₁ = l₂
  | [], l₂, hp, _, _, _ => hp.nil_eq
  | a :: t₁, [], hp, _, _, _ => absurd hp.symm.nil_eq (by simp)
  | a :: t₁, b :: t₂, hp, hs₁, hs₂, hanti => by
    have ha2 : a ∈ b :: t₂ := hp.subset (List.mem_cons_self a t₁)
    have hb1 : b ∈ a :: t₁ := hp.symm.subset (List.mem_cons_self b t₂)
    have hab : a = b := by
      rcases List.mem_cons.mp ha2 with h | h2
      · exact h
      rcases List.mem_cons.mp hb1 with h | h1
      · exact h.symm
      have hra : r b a := (List.pairwise_cons.mp hs₂).1 a h2
      have hrb : r a b := (List.pairwise_cons.mp hs₁).1 b h1
      exact hanti a (List.mem_cons_self a t₁) b (List.mem_cons_of_mem a h1) hrb hra
    subst hab
    have hpt : t₁.Perm t₂ := hp.cons_inv
    have htail : t₁ = t₂ :=
      eq_of_perm_of_pairwise_antisymm t₁ t₂ hpt
        (List.pairwise_cons.mp hs₁).2 (List.pairwise_cons.mp hs₂).2
        (fun x hx y hy => hanti x (List.mem_cons_of_mem a hx) y (List.mem_cons_of_mem a hy))
    rw [htail]

theorem groupRuns_perm : ∀ (n : Nat) (s₁ s₂ : List DicomEntry), s₁.length ≤ n →
    s₁.Perm s₂ → s₁.Pairwise (fun a b => a.key ≤ b.key) →
    s₂.Pairwise (fun a b => a.key ≤ b.key) →
    List.Forall₂ List.Perm (groupRuns s₁) (groupRuns s₂) := by
  intro n
  induction n with
  | zero =>
    intro s₁ s₂ hl hp _ _
    rw [List.length_eq_zero.mp (Nat.le_zero.mp hl)] at hp ⊢
    rw [hp.nil_eq.symm]
    simp [groupRuns]
  | succ n ih =>
    intro s₁ s₂ hl hp hs₁ hs₂
    match s₁, s₂ with
    | [], s₂ =>
      rw [hp.nil_eq.symm]
      simp [groupRuns]
    | a :: t₁, [] => exact absurd hp.symm.nil_eq (by simp)
    | a :: t₁, b :: t₂ =>
      have ha2 : a ∈ b :: t₂ := hp.subset (List.mem_cons_self a t₁)
      have hb1 : b ∈ a :: t₁ := hp.symm.subset (List.mem_cons_self b t₂)
      have hk : a.key = b.key := by
        rcases List.mem_cons.mp ha2 with h | h2
        · rw [h]
        rcases List.mem_cons.mp hb1 with h | h1
        · rw [h]
        have hba : b.key ≤ a.key := (List.pairwise_cons.mp hs₂).1 a h2
        have hab : a.key ≤ b.key := (List.pairwise_cons.mp hs₁).1 b h1
        exact le_antisymm hab hba
      rcases List.pairwise_cons.mp hs₁ with ⟨hc₁, ht₁⟩
      rcases List.pairwise_cons.mp hs₂ with ⟨hc₂, ht₂⟩
      have hf₁ := takeWhile_filter_of_sorted a.key t₁ ht₁ (fun e he => hc₁ e he)
      have hf₂ := takeWhile_filter_of_sorted b.key t₂ ht₂ (fun e he => hc₂ e he)
      rw [groupRuns_cons_eq, groupRuns_cons_eq, hf₁.1, hf₁.2, hf₂.1, hf₂.2]
      have hpk : keyIs a.key = keyIs b.key := by rw [hk]
      rw [hpk] at *
      refine List.Forall₂.cons ?_ ?_
      · have h1 : a :: t₁.filter (keyIs b.key) = (a :: t₁).filter (keyIs b.key) := by
          rw [List.filter_cons_of_pos (by simp [keyIs, hk])]
        have h2 : b :: t₂.filter (keyIs b.key) = (b :: t₂).filter (keyIs b.key) := by
          rw [List.filter_cons_of_pos (by simp [keyIs])]
        rw [h1, h2]
        exact hp.filter (keyIs b.key)
      · have h1 : t₁.filter (fun e => !(keyIs b.key e))
            = (a :: t₁).filter (fun e => !(keyIs b.key e)) := by
          rw [List.filter_cons_of_neg (by simp [keyIs, hk])]
        have h2 : t₂.filter (fun e => !(keyIs b.key e))
            = (b :: t₂).filter (fun e => !(keyIs b.key e)) := by
          rw [List.filter_cons_of_neg (by simp [keyIs])]
        refine ih _ _ ?_ ?_ ?_ ?_
        · have := List.length_filter_le (fun e => !(keyIs b.key e)) t₁
          simp at hl
          omega
        · rw [h1, h2]
          exact hp.filter _
        · exact ht₁.sublist (List.filter_sublist t₁)
        · exact ht₂.sublist (List.filter_sublist t₂)

theorem mergeSort_okey_eq (g₁ g₂ : List DicomEntry) (hp : g₁.Perm g₂)
    (hinjg : ∀ x ∈ g₁, ∀ y ∈ g₁, x.okey = y.okey → x = y) :
    g₁.mergeSort okeyLE = g₂.mergeSort okeyLE := by
  have htrans : ∀ a b c : DicomEntry, okeyLE a b → okeyLE b c → okeyLE a c := by
    intro a b c hab hbc
    simp only [okeyLE, decide_eq_true_eq] at *
    exact le_trans hab hbc
  have htotal : ∀ a b : DicomEntry, okeyLE a b || okeyLE b a := by
    intro a b
    simp only [okeyLE, Bool.or_eq_true, decide_eq_true_eq]
    exact le_total _ _
  apply eq_of_perm_of_pairwise_antisymm (r := fun a b => a.okey ≤ b.okey)
  · exact (List.mergeSort_perm g₁ okeyLE).trans (hp.trans (List.mergeSort_perm g₂ okeyLE).symm)
  · exact (List.sorted_mergeSort htrans htotal g₁).imp (fun h => of_decide_eq_true h)
  · exact (List.sorted_mergeSort htrans htotal g₂).imp (fun h => of_decide_eq_true h)
  · intro x hx y hy hxy hyx
    have hx1 : x ∈ g₁ := List.mem_mergeSort.mp hx
    have hy1 : y ∈ g₁ := List.mem_mergeSort.mp hy
    exact hinjg x hx1 y hy1 (le_antisymm hxy hyx)

theorem map_mergeSort_forall₂ :
    ∀ (gs₁ gs₂ : List (List DicomEntry)), List.Forall₂ List.Perm gs₁ gs₂ →
    (∀ g ∈ gs₁, ∀ x ∈ g, ∀ y ∈ g, x.okey = y.okey → x = y) →
    gs₁.map (fun g => g.mergeSort okeyLE) = gs₂.map (fun g => g.mergeSort okeyLE) := by
  intro gs₁ gs₂ hf
  induction hf with
  | nil => intro _; rfl
  | @cons g₁ g₂ t₁ t₂ hpg _ ih =>
    intro hcond
    simp only [List.map_cons]
    rw [mergeSort_okey_eq g₁ g₂ hpg (hcond g₁ (List.mem_cons_self g₁ t₁)),
      ih (fun g hg => hcond g (List.mem_cons_of_mem g₁ hg))]

/-- C4 amended. Series assembler determinism under input reordering holds
whenever no two distinct entries share both the grouping key and the
ordering key: for any two permutations of the same entry list satisfying
that, the assembler produces identical groups in identical order.  (As
`group_determinism_counterexample` shows, with tied grouping+ordering keys
the stable sorts preserve input order, so the unconditional claim fails.) -/
theorem group_files_determinism (l₁ l₂ : List DicomEntry)
    (hp : l₁.Perm l₂)
    (hinj : ∀ a ∈ l₁, ∀ b ∈ l₁, a.key = b.key → a.okey = b.okey → a = b) :
    groupFilesDicom l₁ = groupFilesDicom l₂ := by
  have hkey_trans : ∀ a b c : DicomEntry, keyLE a b → keyLE b c → keyLE a c := by
    intro a b c hab hbc
    simp only [keyLE, decide_eq_true_eq] at *
    exact le_trans hab hbc
  have hkey_total : ∀ a b : DicomEntry, keyLE a b || keyLE b a := by
    intro a b
    simp only [keyLE, Bool.or_eq_true, decide_eq_true_eq]
    exact le_total _ _
  have hs₁ : (l₁.mergeSort keyLE).Pairwise (fun a b => a.key ≤ b.key) :=
    (List.sorted_mergeSort hkey_trans hkey_total l₁).imp (fun h => of_decide_eq_true h)
  have hs₂ : (l₂.mergeSort keyLE).Pairwise (fun a b => a.key ≤ b.key) :=
    (List.sorted_mergeSort hkey_trans hkey_total l₂).imp (fun h => of_decide_eq_true h)
  have hps : (l₁.mergeSort keyLE).Perm (l₂.mergeSort keyLE) :=
    (List.mergeSort_perm l₁ keyLE).trans (hp.trans (List.mergeSort_perm l₂ keyLE).symm)
  have hruns := groupRuns_perm (l₁.mergeSort keyLE).length _ _ le_rfl hps hs₁ hs₂
  rw [groupFilesDicom, groupFilesDicom]
  apply map_mergeSort_forall₂ _ _ hruns
  intro g hg x hx y hy hxy
  have hxk : x.key = y.key := groupRuns_same_key _ _ le_rfl g hg x hx y hy
  have hxm : x ∈ l₁ := List.mem_mergeSort.mp (groupRuns_mem _ _ le_rfl g hg x hx)
  have hym : y ∈ l₁ := List.mem_mergeSort.mp (groupRuns_mem _ _ le_rfl g hg y hy)
  exact hinj x hxm y hym hxk hxy

/-- Closed instance of `group_files_determinism`: two entries with one
grouping key and distinct ordering keys assemble identically from both input
orders. -/
theorem group_files_determinism_witness :
    groupFilesDicom [⟨"k", 1, "a", .bool false⟩, ⟨"k", 2, "b", .bool false⟩]
      = groupFilesDicom [⟨"k", 2, "b", .bool false⟩, ⟨"k", 1, "a", .bool false⟩] :=
  group_files_determinism _ _ (List.Perm.swap _ _ _)
    (by
      intro a ha b hb hk ho
      rcases List.mem_cons.mp ha with rfl | ha'
      · rcases List.mem_cons.mp hb with rfl | hb'
        · rfl
        · rcases List.mem_singleton.mp hb' with rfl
          norm_num at ho
      · rcases List.mem_singleton.mp ha' with rfl
        rcases List.mem_cons.mp hb with rfl | hb'
        · norm_num at ho
        · rcases List.mem_singleton.mp hb' with rfl
          rfl)
